import Mathlib

/-!
Shallow embedding of the Euclidean cluster extraction of
`segmentation/include/pcl/segmentation/extract_clusters.h`.

The spatial index (`pcl::search::Search`) is modelled abstractly by the
data the algorithm reads from it: the size of its backing cloud, the size
of its registered index subset, the sorted-results flag, and the radius
query itself (`none` models `radiusSearch` returning zero neighbours,
which the caller treats as a failed query).  Point clouds are modelled by
their size and provenance header, since the engine itself touches points
only through the index and the filter functor.  The visited array is a
`List Bool`; reads use `getD` with default `false`, mirroring the C++
`std::vector<bool>` subscript on in-range indices.
-/

namespace PclClusters

/-- `processed[i]` read of the visited array. -/
def getB (p : List Bool) (i : Nat) : Bool := p.getD i false

/-- Number of `false` (unvisited) entries of the visited array. -/
def countF : List Bool → Nat
  | [] => 0
  | b :: t => (if b then 0 else 1) + countF t

/-- Type of the `additional_filter_criteria` functor: it receives the seed
point identifier (`it.getCurrentIndex()`), the neighbour candidate list
`nn_indices` and the candidate position `j`.  The cloud argument of the
C++ functor is captured, since the engine passes the (fixed) cloud through
unchanged. -/
abbrev FilterT := Nat → List Nat → Nat → Bool

/-- A point cloud view: its number of points and its provenance header. -/
structure Cloud where
  size : Nat
  header : Nat
deriving DecidableEq

/-- `pcl::PointIndices`: a header plus a list of point identifiers. -/
structure PointIndices where
  header : Nat
  indices : List Nat
deriving DecidableEq

/-- The spatial index, abstracted to what `extractEuclideanClusters`
reads from it. -/
structure SearchTree where
  inputSize : Nat
  idxSize : Nat
  sorted : Bool
  radiusSearch : Nat → ℚ → Option (List Nat)

/-- The index is built over the supplied cloud: every neighbour
identifier it returns is a valid point identifier. -/
def TreeValid (tree : SearchTree) (n : Nat) : Prop :=
  ∀ i t r, tree.radiusSearch i t = some r → ∀ x ∈ r, x < n

/-- Inner neighbour scan (source lines 116–125): positions `j`,
`j+1`, … of `nn_indices` are examined while `j < nn_indices.size()`;
`k` is a structural iteration counter (any value `≥ nn.length - j`
yields the loop's result).  An unvisited candidate accepted by the
filter is appended to the seed queue and marked visited at once. -/
def processNeighbors (filter : FilterT) (seed : Nat) (nn : List Nat) :
    Nat → Nat → List Nat → List Bool → List Nat × List Bool
  | 0, _, q, p => (q, p)
  | k+1, j, q, p =>
    if h : j < nn.length then
      let nj := nn.get ⟨j, h⟩
      if getB p nj then processNeighbors filter seed nn k (j+1) q p
      else if filter seed nn j then
        processNeighbors filter seed nn k (j+1) (q ++ [nj]) (p.set nj true)
      else processNeighbors filter seed nn k (j+1) q p
    else (q, p)

/-- Queue-growing loop (source lines 107–126): members of the seed queue
are expanded in append order; a failed radius query skips the member.
`fuel` bounds the number of member expansions; the termination theorem
shows `fuel = n` (the cloud size) always suffices for a valid tree. -/
def growLoop (filter : FilterT) (tree : SearchTree) (tol : ℚ) (seed : Nat) :
    Nat → Nat → List Nat → List Bool → List Nat × List Bool
  | 0, _, q, p => (q, p)
  | fuel+1, sqIdx, q, p =>
    if h : sqIdx < q.length then
      match tree.radiusSearch (q.get ⟨sqIdx, h⟩) tol with
      | none => growLoop filter tree tol seed fuel (sqIdx+1) q p
      | some nn =>
        let nnStart : Nat := if tree.sorted then 1 else 0
        let r := processNeighbors filter seed nn nn.length nnStart q p
        growLoop filter tree tol seed fuel (sqIdx+1) r.1 r.2
    else (q, p)

/-- Outer iteration over the cloud view (source lines 97–133).  Besides
the emitted clusters (`emplace_back` / `pop_back` is modelled as
append-on-success) it returns the clusters that were discarded for
violating the size bounds — a ghost output used to state the invariants —
and the final visited array. -/
def outerLoopG (filter : FilterT) (tree : SearchTree) (tol : ℚ)
    (minPts maxPts hdr : Nat) :
    List Nat → List PointIndices → List PointIndices → List Bool →
    List PointIndices × List PointIndices × List Bool
  | [], kept, disc, p => (kept, disc, p)
  | i :: rest, kept, disc, p =>
    if getB p i then outerLoopG filter tree tol minPts maxPts hdr rest kept disc p
    else
      let p1 := p.set i true
      let g := growLoop filter tree tol i p.length 0 [i] p1
      if minPts ≤ g.1.length ∧ g.1.length ≤ maxPts then
        outerLoopG filter tree tol minPts maxPts hdr rest (kept ++ [⟨hdr, g.1⟩]) disc g.2
      else
        outerLoopG filter tree tol minPts maxPts hdr rest kept (disc ++ [⟨0, g.1⟩]) g.2

/-- `outerLoopG` with the per-seed growth fuel made explicit.  The C++
inner loop is unbounded; `outerLoopG` embeds each growth with fuel
`p.length` (the cloud size), and the termination theorem shows that any
fuel of at least the cloud size yields the identical run, so the
embedded bound is the loop's fixed point. -/
def outerLoopGFuel (filter : FilterT) (tree : SearchTree) (tol : ℚ)
    (minPts maxPts hdr fuel : Nat) :
    List Nat → List PointIndices → List PointIndices → List Bool →
    List PointIndices × List PointIndices × List Bool
  | [], kept, disc, p => (kept, disc, p)
  | i :: rest, kept, disc, p =>
    if getB p i then
      outerLoopGFuel filter tree tol minPts maxPts hdr fuel rest kept disc p
    else
      let g := growLoop filter tree tol i fuel 0 [i] (p.set i true)
      if minPts ≤ g.1.length ∧ g.1.length ≤ maxPts then
        outerLoopGFuel filter tree tol minPts maxPts hdr fuel rest
          (kept ++ [⟨hdr, g.1⟩]) disc g.2
      else
        outerLoopGFuel filter tree tol minPts maxPts hdr fuel rest kept
          (disc ++ [⟨0, g.1⟩]) g.2

/-- Source lines 76–134: the cloud-iterator overload.  `itList` is the
sequence of `it.getCurrentIndex()` values produced by the iterator.
On a backing-cloud size mismatch the call returns with the caller's
cluster vector unchanged. -/
def extractEuclideanClustersIter (itList : List Nat) (cloud : Cloud)
    (filter : FilterT) (tree : SearchTree) (tol : ℚ)
    (clusters : List PointIndices) (minPts maxPts : Nat) : List PointIndices :=
  if tree.inputSize ≠ cloud.size then clusters
  else (outerLoopG filter tree tol minPts maxPts cloud.header itList clusters []
          (List.replicate cloud.size false)).1

/-- Source lines 150–159: the whole-cloud overload; the iterator visits
point identifiers `0, …, size-1` in order. -/
def extractEuclideanClusters (cloud : Cloud) (filter : FilterT)
    (tree : SearchTree) (tol : ℚ) (clusters : List PointIndices)
    (minPts maxPts : Nat) : List PointIndices :=
  extractEuclideanClustersIter (List.range cloud.size) cloud filter tree tol
    clusters minPts maxPts

/-- Source lines 176–193: the subset overload.  It first checks the tree's
registered subset size against the supplied subset, then iterates the
subset (the iterator's `getCurrentIndex` yields `indices[pos]`). -/
def extractEuclideanClustersIndices (cloud : Cloud) (indices : List Nat)
    (filter : FilterT) (tree : SearchTree) (tol : ℚ)
    (clusters : List PointIndices) (minPts maxPts : Nat) : List PointIndices :=
  if tree.idxSize ≠ indices.length then clusters
  else extractEuclideanClustersIter indices cloud filter tree tol clusters minPts maxPts

/-- Dot product of two 3-vectors (`getNormalVector3fMap().dot`). -/
def dot3 (a b : ℝ × ℝ × ℝ) : ℝ := a.1 * b.1 + a.2.1 * b.2.1 + a.2.2 * b.2.2

/-- Source lines 258–263: the normal-deviation criterion.  `max_angle` is
clamped to `[0, π]` by `std::min(std::abs(max_angle), M_PI)`, its cosine
is precomputed, and the candidate at position `j` of `nn_indices` is
accepted iff `|normal(i) · normal(nn_indices[j])| < cos_max_angle`. -/
def normal_deviation_filter (normals : List (ℝ × ℝ × ℝ)) (max_angle : ℝ)
    (i : Nat) (nn : List Nat) (j : Nat) : Prop :=
  |dot3 (normals.getD i (0, 0, 0)) (normals.getD (nn.getD j 0) (0, 0, 0))|
    < Real.cos (min |max_angle| Real.pi)

/-- Source lines 302–306: the subset variant of the criterion translates
both the seed identifier and the neighbour identifier through the index
subset before looking up the normals. -/
def normal_deviation_filter_idx (normals : List (ℝ × ℝ × ℝ))
    (indices : List Nat) (max_angle : ℝ)
    (i : Nat) (nn : List Nat) (j : Nat) : Prop :=
  |dot3 (normals.getD (indices.getD i 0) (0, 0, 0))
        (normals.getD (indices.getD (nn.getD j 0) 0) (0, 0, 0))|
    < Real.cos (min |max_angle| Real.pi)

/-- Source lines 244–265: the normal-angle overload.  The real-valued
criterion is not computable, so the overload is embedded as a relation
between the inputs and the produced cluster list: the run uses any
boolean functor that agrees pointwise with the criterion. -/
def extractEuclideanClustersNormals (cloud : Cloud)
    (normals : List (ℝ × ℝ × ℝ)) (tol : ℚ) (tree : SearchTree)
    (clusters : List PointIndices) (max_angle : ℝ) (minPts maxPts : Nat)
    (out : List PointIndices) : Prop :=
  if cloud.size ≠ normals.length then out = clusters
  else ∃ f : FilterT,
    (∀ i nn j, f i nn j = true ↔ normal_deviation_filter normals max_angle i nn j) ∧
    out = extractEuclideanClusters cloud f tree tol clusters minPts maxPts

/-- Source lines 283–309: the normal-angle subset overload: the size
check comes first, then an empty subset returns silently, then the run
proceeds with the subset variant of the criterion. -/
def extractEuclideanClustersNormalsIndices (cloud : Cloud)
    (normals : List (ℝ × ℝ × ℝ)) (indices : List Nat) (tree : SearchTree)
    (tol : ℚ) (clusters : List PointIndices) (max_angle : ℝ)
    (minPts maxPts : Nat) (out : List PointIndices) : Prop :=
  if cloud.size ≠ normals.length then out = clusters
  else if indices = [] then out = clusters
  else ∃ f : FilterT,
    (∀ i nn j, f i nn j = true ↔ normal_deviation_filter_idx normals indices max_angle i nn j) ∧
    out = extractEuclideanClustersIndices cloud indices f tree tol clusters minPts maxPts

/-- All point identifiers of a cluster list, in order. -/
def flatI : List PointIndices → List Nat
  | [] => []
  | c :: r => c.indices ++ flatI r

/-- Source lines 441–445: `comparePointClusters` orders two clusters by
ascending member count. -/
def comparePointClusters (a b : PointIndices) : Bool :=
  a.indices.length < b.indices.length

/-! ### Concrete spatial indices used to exercise the theorems -/

/-- Two points that are mutual radius-neighbours. -/
def twoPointTree : SearchTree :=
  ⟨2, 0, false, fun i _ =>
    match i with
    | 0 => some [0, 1]
    | 1 => some [1, 0]
    | _ => none⟩

/-- Radius queries of a three-point layout: `0` and `1` are mutual
neighbours, `2` is isolated; every result list starts with the query. -/
def searchFun3 : Nat → ℚ → Option (List Nat) := fun i _ =>
  match i with
  | 0 => some [0, 1]
  | 1 => some [1, 0]
  | 2 => some [2]
  | _ => none

/-- Three points: `0` and `1` are mutual neighbours, `2` is isolated. -/
def threePointTree : SearchTree := ⟨3, 0, false, searchFun3⟩

/-- A two-point index whose query fails on point `1`. -/
def failTree : SearchTree :=
  ⟨2, 0, false, fun i _ => if i = 0 then some [0] else none⟩

/-- An index over an empty cloud and empty subset. -/
def emptyTree : SearchTree := ⟨0, 0, false, fun _ _ => none⟩

/-- A single isolated point. -/
def onePointTree : SearchTree :=
  ⟨1, 0, false, fun i _ => if i = 0 then some [0] else none⟩

/-! ### Basic facts about the visited array and the flattening helper -/

theorem getB_set_self : ∀ (p : List Bool) (i : Nat), i < p.length →
    getB (p.set i true) i = true
  | [], i, h => absurd h (by simp)
  | _ :: _, 0, _ => rfl
  | a :: t, i+1, h => by
    simpa [getB, List.set] using getB_set_self t i (by simpa using h)

theorem getB_set_other : ∀ (p : List Bool) (i x : Nat) (b : Bool), i ≠ x →
    getB (p.set i b) x = getB p x
  | [], _, _, _, _ => rfl
  | a :: t, 0, 0, b, hne => absurd rfl hne
  | a :: t, 0, x+1, b, _ => rfl
  | a :: t, i+1, 0, b, _ => rfl
  | a :: t, i+1, x+1, b, hne => by
    simpa [getB, List.set] using getB_set_other t i x b (fun h => hne (by omega))

theorem getB_set_mono {p : List Bool} {x : Nat} (hp : getB p x = true) (i : Nat) :
    getB (p.set i true) x = true := by
  by_cases hix : i = x
  · subst hix
    by_cases hl : i < p.length
    · exact getB_set_self p i hl
    · rwa [List.set_eq_of_length_le (by omega)]
  · rwa [getB_set_other p i x true hix]

theorem getB_set_false_of {p : List Bool} {i x : Nat}
    (h : getB (p.set i true) x = false) : getB p x = false := by
  by_cases hp : getB p x = true
  · rw [getB_set_mono hp i] at h; exact absurd h (by simp)
  · simpa using hp

theorem lt_length_of_getB {p : List Bool} {x : Nat} (h : getB p x = true) :
    x < p.length := by
  by_contra hge
  rw [getB, List.getD_eq_default p false (by omega)] at h
  exact absurd h (by simp)

theorem getB_replicate_false (n i : Nat) : getB (List.replicate n false) i = false := by
  induction n generalizing i with
  | zero => rfl
  | succ n ih =>
    cases i with
    | zero => rfl
    | succ i => simp only [List.replicate, getB, List.getD_cons_succ]; exact ih i

theorem countF_le_length : ∀ p : List Bool, countF p ≤ p.length
  | [] => Nat.le_refl 0
  | b :: t => by
    have := countF_le_length t
    by_cases hb : b <;> simp [countF, hb] <;> omega

theorem countF_replicate : ∀ n : Nat, countF (List.replicate n false) = n
  | 0 => rfl
  | n+1 => by simp [List.replicate, countF, countF_replicate n]; omega

theorem countF_set_true : ∀ (p : List Bool) (i : Nat), i < p.length →
    getB p i = false → countF (p.set i true) + 1 = countF p
  | [], i, h, _ => absurd h (by simp)
  | a :: t, 0, _, hf => by
    have ha : a = false := by simpa [getB] using hf
    subst ha; simp [List.set, countF]; omega
  | a :: t, i+1, h, hf => by
    have := countF_set_true t i (by simpa using h) (by simpa [getB] using hf)
    simp only [List.set, countF]
    omega

theorem nodup_length_le {l : List Nat} {n : Nat} (hn : l.Nodup)
    (hb : ∀ x ∈ l, x < n) : l.length ≤ n := by
  have hsub : l ⊆ List.range n := fun x hx => List.mem_range.2 (hb x hx)
  simpa using (List.subperm_of_subset hn hsub).length_le

theorem flatI_append : ∀ a b : List PointIndices, flatI (a ++ b) = flatI a ++ flatI b
  | [], _ => rfl
  | c :: r, b => by simp [flatI, flatI_append r b]

theorem mem_flatI {x : Nat} : ∀ {L : List PointIndices},
    x ∈ flatI L ↔ ∃ c ∈ L, x ∈ c.indices := by
  intro L
  induction L with
  | nil => simp [flatI]
  | cons c r ih => simp [flatI, ih]

/-! ### Properties of the inner neighbour scan -/

theorem processNeighbors_exit (filter : FilterT) (seed : Nat) (nn : List Nat) :
    ∀ (k j : Nat) (q : List Nat) (p : List Bool), nn.length ≤ j →
    processNeighbors filter seed nn k j q p = (q, p)
  | 0, _, _, _, _ => rfl
  | k+1, j, q, p, h => by
    simp only [processNeighbors, dif_neg (Nat.not_lt.2 h)]

/-- The iteration counter is irrelevant as soon as it covers the remaining
positions: the scan is driven by the `j < nn.length` test. -/
theorem processNeighbors_congr_k (filter : FilterT) (seed : Nat) (nn : List Nat) :
    ∀ (k k' j : Nat) (q : List Nat) (p : List Bool),
    nn.length ≤ k + j → nn.length ≤ k' + j →
    processNeighbors filter seed nn k j q p = processNeighbors filter seed nn k' j q p
  | 0, k', j, q, p, hk, _ => by
    rw [processNeighbors_exit filter seed nn 0 j q p (by omega),
        processNeighbors_exit filter seed nn k' j q p (by omega)]
  | k+1, k', j, q, p, hk, hk' => by
    by_cases h : j < nn.length
    · obtain ⟨k', rfl⟩ : ∃ m, k' = m + 1 := ⟨k' - 1, by omega⟩
      simp only [processNeighbors, dif_pos h]
      by_cases hp : getB p (nn.get ⟨j, h⟩) = true
      · rw [if_pos hp, if_pos hp]
        exact processNeighbors_congr_k filter seed nn k k' (j+1) q p (by omega) (by omega)
      · rw [if_neg hp, if_neg hp]
        by_cases hf : filter seed nn j = true
        · rw [if_pos hf, if_pos hf]
          exact processNeighbors_congr_k filter seed nn k k' (j+1) _ _ (by omega) (by omega)
        · rw [if_neg hf, if_neg hf]
          exact processNeighbors_congr_k filter seed nn k k' (j+1) q p (by omega) (by omega)
    · rw [processNeighbors_exit filter seed nn _ j q p (by omega),
          processNeighbors_exit filter seed nn k' j q p (by omega)]

/-- The neighbour scan only ever writes marks, so the visited array's
length is preserved unconditionally. -/
theorem processNeighbors_length (filter : FilterT) (seed : Nat) (nn : List Nat) :
    ∀ (k j : Nat) (q : List Nat) (p : List Bool),
    (processNeighbors filter seed nn k j q p).2.length = p.length
  | 0, _, _, _ => rfl
  | k+1, j, q, p => by
    by_cases h : j < nn.length
    · simp only [processNeighbors, dif_pos h]
      by_cases hp : getB p (nn.get ⟨j, h⟩) = true
      · rw [if_pos hp]; exact processNeighbors_length filter seed nn k (j+1) q p
      · rw [if_neg hp]
        by_cases hf : filter seed nn j = true
        · rw [if_pos hf]
          rw [processNeighbors_length filter seed nn k (j+1)
            (q ++ [nn.get ⟨j, h⟩]) (p.set (nn.get ⟨j, h⟩) true)]
          exact List.length_set p (nn.get ⟨j, h⟩) true
        · rw [if_neg hf]; exact processNeighbors_length filter seed nn k (j+1) q p
    · simp only [processNeighbors, dif_neg h]

theorem processNeighbors_extends (filter : FilterT) (seed : Nat) (nn : List Nat) :
    ∀ (k j : Nat) (q : List Nat) (p : List Bool),
    ∃ tl, (processNeighbors filter seed nn k j q p).1 = q ++ tl
  | 0, _, q, _ => ⟨[], by simp [processNeighbors]⟩
  | k+1, j, q, p => by
    by_cases h : j < nn.length
    · simp only [processNeighbors, dif_pos h]
      by_cases hp : getB p (nn.get ⟨j, h⟩) = true
      · rw [if_pos hp]; exact processNeighbors_extends filter seed nn k (j+1) q p
      · rw [if_neg hp]
        by_cases hf : filter seed nn j = true
        · rw [if_pos hf]
          obtain ⟨tl, htl⟩ := processNeighbors_extends filter seed nn k (j+1)
            (q ++ [nn.get ⟨j, h⟩]) (p.set (nn.get ⟨j, h⟩) true)
          exact ⟨nn.get ⟨j, h⟩ :: tl, by simpa using htl⟩
        · rw [if_neg hf]; exact processNeighbors_extends filter seed nn k (j+1) q p
    · exact ⟨[], by simp [processNeighbors, dif_neg h]⟩

theorem processNeighbors_const_false {filter : FilterT}
    (hf : ∀ s nnl j, filter s nnl j = false) (seed : Nat) (nn : List Nat) :
    ∀ (k j : Nat) (q : List Nat) (p : List Bool),
    processNeighbors filter seed nn k j q p = (q, p)
  | 0, _, _, _ => rfl
  | k+1, j, q, p => by
    by_cases h : j < nn.length
    · simp only [processNeighbors, dif_pos h]
      by_cases hp : getB p (nn.get ⟨j, h⟩) = true
      · rw [if_pos hp]; exact processNeighbors_const_false hf seed nn k (j+1) q p
      · rw [if_neg hp, if_neg (by simp [hf])]
        exact processNeighbors_const_false hf seed nn k (j+1) q p
    · simp only [processNeighbors, dif_neg h]

/-- Invariants of one neighbour scan: the visited array keeps its length
and only gains marks; every queue entry either was already queued or is a
previously-unvisited neighbour; if all queue entries were visited then
afterwards all (including the new ones) are, and the queue stays
duplicate-free; and the number of unvisited points plus the queue length
does not increase. -/
theorem processNeighbors_spec (filter : FilterT) (seed : Nat) (nn : List Nat) :
    ∀ (k j : Nat) (q : List Nat) (p : List Bool),
    (∀ x ∈ nn, x < p.length) →
    ((processNeighbors filter seed nn k j q p).2.length = p.length ∧
     (∀ x, getB p x = true → getB (processNeighbors filter seed nn k j q p).2 x = true) ∧
     (∀ x ∈ (processNeighbors filter seed nn k j q p).1,
        x ∈ q ∨ (x ∈ nn ∧ getB p x = false)) ∧
     ((∀ x ∈ q, getB p x = true) →
        (∀ x ∈ (processNeighbors filter seed nn k j q p).1,
           getB (processNeighbors filter seed nn k j q p).2 x = true) ∧
        (q.Nodup → (processNeighbors filter seed nn k j q p).1.Nodup)) ∧
     countF (processNeighbors filter seed nn k j q p).2 +
       (processNeighbors filter seed nn k j q p).1.length ≤ countF p + q.length) := by
  intro k
  induction k with
  | zero =>
    intro j q p _
    exact ⟨rfl, fun x hx => hx, fun x hx => Or.inl hx, fun hq => ⟨hq, fun hn => hn⟩,
      Nat.le_refl _⟩
  | succ k ih =>
    intro j q p HB
    by_cases h : j < nn.length
    · simp only [processNeighbors, dif_pos h]
      by_cases hp : getB p (nn.get ⟨j, h⟩) = true
      · rw [if_pos hp]; exact ih (j+1) q p HB
      · rw [if_neg hp]
        by_cases hf : filter seed nn j = true
        · rw [if_pos hf]
          have hnjmem : nn.get ⟨j, h⟩ ∈ nn := List.get_mem nn j h
          have hnjlt : nn.get ⟨j, h⟩ < p.length := HB _ hnjmem
          have hpfalse : getB p (nn.get ⟨j, h⟩) = false := by
            simpa using hp
          have HB' : ∀ x ∈ nn, x < (p.set (nn.get ⟨j, h⟩) true).length := by
            simpa using HB
          obtain ⟨hlen, hmono, horig, hproc, hcount⟩ :=
            ih (j+1) (q ++ [nn.get ⟨j, h⟩]) (p.set (nn.get ⟨j, h⟩) true) HB'
          refine ⟨by simpa using hlen, ?_, ?_, ?_, ?_⟩
          · intro x hx
            exact hmono x (getB_set_mono hx _)
          · intro x hx
            rcases horig x hx with hxq | ⟨hxnn, hxf⟩
            · rcases List.mem_append.1 hxq with hxq | hxnj
              · exact Or.inl hxq
              · have : x = nn.get ⟨j, h⟩ := by simpa using hxnj
                exact Or.inr ⟨this ▸ hnjmem, this ▸ hpfalse⟩
            · exact Or.inr ⟨hxnn, getB_set_false_of hxf⟩
          · intro HQ
            have HQ' : ∀ x ∈ q ++ [nn.get ⟨j, h⟩],
                getB (p.set (nn.get ⟨j, h⟩) true) x = true := by
              intro x hx
              rcases List.mem_append.1 hx with hxq | hxnj
              · exact getB_set_mono (HQ x hxq) _
              · have : x = nn.get ⟨j, h⟩ := by simpa using hxnj
                subst this
                exact getB_set_self p _ hnjlt
            refine ⟨(hproc HQ').1, fun hnd => (hproc HQ').2 ?_⟩
            have hnjq : nn.get ⟨j, h⟩ ∉ q := fun hmem => by
              rw [HQ _ hmem] at hpfalse; exact absurd hpfalse (by simp)
            simpa [List.nodup_append] using And.intro hnd hnjq
          · have hCF : countF (p.set (nn.get ⟨j, h⟩) true) + 1 = countF p :=
              countF_set_true p _ hnjlt hpfalse
            have := hcount
            simp only [List.length_append, List.length_singleton] at this
            omega
        · rw [if_neg hf]; exact ih (j+1) q p HB
    · rw [processNeighbors_exit filter seed nn (k+1) j q p (by omega)]
      exact ⟨rfl, fun x hx => hx, fun x hx => Or.inl hx, fun hq => ⟨hq, fun hn => hn⟩,
        Nat.le_refl _⟩

/-! ### Properties of the queue-growing loop -/

theorem growLoop_exit (filter : FilterT) (tree : SearchTree) (tol : ℚ) (seed : Nat) :
    ∀ (fuel sqIdx : Nat) (q : List Nat) (p : List Bool), q.length ≤ sqIdx →
    growLoop filter tree tol seed fuel sqIdx q p = (q, p)
  | 0, _, _, _, _ => rfl
  | fuel+1, sqIdx, q, p, h => by
    simp only [growLoop, dif_neg (Nat.not_lt.2 h)]

/-- The growth loop preserves the visited array's length,
unconditionally. -/
theorem growLoop_length (filter : FilterT) (tree : SearchTree) (tol : ℚ)
    (seed : Nat) :
    ∀ (fuel sqIdx : Nat) (q : List Nat) (p : List Bool),
    (growLoop filter tree tol seed fuel sqIdx q p).2.length = p.length
  | 0, _, _, _ => rfl
  | fuel+1, sqIdx, q, p => by
    by_cases h : sqIdx < q.length
    · simp only [growLoop, dif_pos h]
      cases hs : tree.radiusSearch (q.get ⟨sqIdx, h⟩) tol with
      | none => exact growLoop_length filter tree tol seed fuel (sqIdx+1) q p
      | some nn =>
        dsimp only
        rw [growLoop_length filter tree tol seed fuel (sqIdx+1) _ _]
        exact processNeighbors_length filter seed nn nn.length
          (if tree.sorted then 1 else 0) q p
    · simp only [growLoop, dif_neg h]

/-- Queue members are only ever appended: whatever has been accepted into
the seed queue stays there. -/
theorem growLoop_extends (filter : FilterT) (tree : SearchTree) (tol : ℚ) (seed : Nat) :
    ∀ (fuel sqIdx : Nat) (q : List Nat) (p : List Bool),
    ∃ tl, (growLoop filter tree tol seed fuel sqIdx q p).1 = q ++ tl
  | 0, _, q, _ => ⟨[], by simp [growLoop]⟩
  | fuel+1, sqIdx, q, p => by
    by_cases h : sqIdx < q.length
    · simp only [growLoop, dif_pos h]
      cases hs : tree.radiusSearch (q.get ⟨sqIdx, h⟩) tol with
      | none => exact growLoop_extends filter tree tol seed fuel (sqIdx+1) q p
      | some nn =>
        obtain ⟨tl₁, h₁⟩ := processNeighbors_extends filter seed nn nn.length
          (if tree.sorted then 1 else 0) q p
        obtain ⟨tl₂, h₂⟩ := growLoop_extends filter tree tol seed fuel (sqIdx+1)
          (processNeighbors filter seed nn nn.length (if tree.sorted then 1 else 0) q p).1
          (processNeighbors filter seed nn nn.length (if tree.sorted then 1 else 0) q p).2
        exact ⟨tl₁ ++ tl₂, by rw [h₂, h₁, List.append_assoc]⟩
    · exact ⟨[], by simp [growLoop, dif_neg h]⟩

/-- Invariants of the growth loop, for an index returning only valid
point identifiers; mirrors `processNeighbors_spec` at loop level. -/
theorem growLoop_spec (filter : FilterT) (tree : SearchTree) (tol : ℚ) (seed : Nat) :
    ∀ (fuel sqIdx : Nat) (q : List Nat) (p : List Bool),
    TreeValid tree p.length →
    ((growLoop filter tree tol seed fuel sqIdx q p).2.length = p.length ∧
     (∀ x, getB p x = true → getB (growLoop filter tree tol seed fuel sqIdx q p).2 x = true) ∧
     (∀ x ∈ (growLoop filter tree tol seed fuel sqIdx q p).1,
        x ∈ q ∨ (getB p x = false ∧ x < p.length)) ∧
     ((∀ x ∈ q, getB p x = true) →
        (∀ x ∈ (growLoop filter tree tol seed fuel sqIdx q p).1,
           getB (growLoop filter tree tol seed fuel sqIdx q p).2 x = true) ∧
        (q.Nodup → (growLoop filter tree tol seed fuel sqIdx q p).1.Nodup)) ∧
     countF (growLoop filter tree tol seed fuel sqIdx q p).2 +
       (growLoop filter tree tol seed fuel sqIdx q p).1.length ≤ countF p + q.length) := by
  intro fuel
  induction fuel with
  | zero =>
    intro sqIdx q p _
    exact ⟨rfl, fun x hx => hx, fun x hx => Or.inl hx, fun hq => ⟨hq, fun hn => hn⟩,
      Nat.le_refl _⟩
  | succ fuel ih =>
    intro sqIdx q p HT
    by_cases h : sqIdx < q.length
    · simp only [growLoop, dif_pos h]
      cases hs : tree.radiusSearch (q.get ⟨sqIdx, h⟩) tol with
      | none => exact ih (sqIdx+1) q p HT
      | some nn =>
        dsimp only
        have HB : ∀ x ∈ nn, x < p.length := HT _ _ _ hs
        obtain ⟨plen, pmono, porig, pproc, pcount⟩ :=
          processNeighbors_spec filter seed nn nn.length
            (if tree.sorted then 1 else 0) q p HB
        have HT' : TreeValid tree
            (processNeighbors filter seed nn nn.length
              (if tree.sorted then 1 else 0) q p).2.length := by
          rw [plen]; exact HT
        obtain ⟨glen, gmono, gorig, gproc, gcount⟩ := ih (sqIdx+1) _ _ HT'
        refine ⟨by rw [glen, plen], ?_, ?_, ?_, ?_⟩
        · exact fun x hx => gmono x (pmono x hx)
        · intro x hx
          rcases gorig x hx with hxq | ⟨hxf, hxl⟩
          · rcases porig x hxq with hxq' | ⟨hxnn, hxf'⟩
            · exact Or.inl hxq'
            · exact Or.inr ⟨hxf', HB x hxnn⟩
          · refine Or.inr ⟨?_, by rwa [plen] at hxl⟩
            by_cases hb : getB p x = true
            · rw [pmono x hb] at hxf; exact absurd hxf (by simp)
            · simpa using hb
        · intro HQ
          obtain ⟨pall, pnd⟩ := pproc HQ
          exact ⟨(gproc pall).1, fun hnd => (gproc pall).2 (pnd hnd)⟩
        · omega
    · rw [growLoop_exit filter tree tol seed (fuel+1) sqIdx q p (by omega)]
      exact ⟨rfl, fun x hx => hx, fun x hx => Or.inl hx, fun hq => ⟨hq, fun hn => hn⟩,
        Nat.le_refl _⟩

/-- Fuel beyond the number of unvisited points plus the pending queue
suffix is irrelevant: the loop has already reached its fixed point. -/
theorem growLoop_stable (filter : FilterT) (tree : SearchTree) (tol : ℚ) (seed : Nat) :
    ∀ (fuel fuel' sqIdx : Nat) (q : List Nat) (p : List Bool),
    TreeValid tree p.length →
    countF p + q.length ≤ fuel + sqIdx →
    countF p + q.length ≤ fuel' + sqIdx →
    growLoop filter tree tol seed fuel sqIdx q p =
    growLoop filter tree tol seed fuel' sqIdx q p := by
  intro fuel
  induction fuel using Nat.strong_induction_on with
  | _ fuel IH =>
    intro fuel' sqIdx q p HT hb hb'
    by_cases h : sqIdx < q.length
    · have hq : sqIdx < countF p + q.length := by
        have := Nat.le_add_left q.length (countF p); omega
      obtain ⟨a, rfl⟩ : ∃ m, fuel = m + 1 := ⟨fuel - 1, by omega⟩
      obtain ⟨b, rfl⟩ : ∃ m, fuel' = m + 1 := ⟨fuel' - 1, by omega⟩
      simp only [growLoop, dif_pos h]
      cases hs : tree.radiusSearch (q.get ⟨sqIdx, h⟩) tol with
      | none =>
        exact IH a (by omega) b (sqIdx+1) q p HT (by omega) (by omega)
      | some nn =>
        have HB : ∀ x ∈ nn, x < p.length := HT _ _ _ hs
        obtain ⟨plen, _, _, _, pcount⟩ :=
          processNeighbors_spec filter seed nn nn.length
            (if tree.sorted then 1 else 0) q p HB
        have HT' : TreeValid tree
            (processNeighbors filter seed nn nn.length
              (if tree.sorted then 1 else 0) q p).2.length := by
          rw [plen]; exact HT
        exact IH a (by omega) b (sqIdx+1) _ _ HT' (by omega) (by omega)
    · rw [growLoop_exit filter tree tol seed _ sqIdx q p (by omega),
          growLoop_exit filter tree tol seed fuel' sqIdx q p (by omega)]

theorem growLoop_const_false {filter : FilterT}
    (hf : ∀ s nnl j, filter s nnl j = false)
    (tree : SearchTree) (tol : ℚ) (seed : Nat) :
    ∀ (fuel sqIdx : Nat) (q : List Nat) (p : List Bool),
    growLoop filter tree tol seed fuel sqIdx q p = (q, p)
  | 0, _, _, _ => rfl
  | fuel+1, sqIdx, q, p => by
    by_cases h : sqIdx < q.length
    · simp only [growLoop, dif_pos h]
      cases hs : tree.radiusSearch (q.get ⟨sqIdx, h⟩) tol with
      | none => exact growLoop_const_false hf tree tol seed fuel (sqIdx+1) q p
      | some nn =>
        dsimp only
        rw [processNeighbors_const_false hf seed nn nn.length
          (if tree.sorted then 1 else 0) q p]
        exact growLoop_const_false hf tree tol seed fuel (sqIdx+1) q p
    · simp only [growLoop, dif_neg h]

/-! ### Properties of the outer iteration -/

theorem flatI_snoc (l : List PointIndices) (c : PointIndices) :
    flatI (l ++ [c]) = flatI l ++ c.indices := by
  simp [flatI_append, flatI]

/-- Invariants of the outer iteration: the visited array keeps its length
and only gains marks; the identifiers of the emitted and the discarded
clusters together are duplicate-free and all marked visited; clusters are
appended, every newly emitted one satisfies the size bounds and carries
the cloud header, and every newly discarded one violates the bounds. -/
theorem outerLoopG_invariants (filter : FilterT) (tree : SearchTree) (tol : ℚ)
    (minPts maxPts hdr : Nat) :
    ∀ (itList : List Nat) (kept disc : List PointIndices) (p : List Bool)
      (K D : List PointIndices) (P : List Bool),
    outerLoopG filter tree tol minPts maxPts hdr itList kept disc p = (K, D, P) →
    TreeValid tree p.length →
    (∀ i ∈ itList, i < p.length) →
    (flatI kept).Nodup →
    (flatI disc).Nodup →
    List.Disjoint (flatI kept) (flatI disc) →
    (∀ x ∈ flatI kept, getB p x = true) →
    (∀ x ∈ flatI disc, getB p x = true) →
    (P.length = p.length ∧
     (flatI K).Nodup ∧
     (flatI D).Nodup ∧
     List.Disjoint (flatI K) (flatI D) ∧
     (∀ x ∈ flatI K, getB P x = true) ∧
     (∀ x ∈ flatI D, getB P x = true) ∧
     (∃ tk, K = kept ++ tk ∧ ∀ c ∈ tk,
        minPts ≤ c.indices.length ∧ c.indices.length ≤ maxPts ∧ c.header = hdr) ∧
     (∃ td, D = disc ++ td ∧ ∀ d ∈ td,
        ¬(minPts ≤ d.indices.length ∧ d.indices.length ≤ maxPts)) ∧
     (∀ x, getB p x = true → getB P x = true)) := by
  intro itList
  induction itList with
  | nil =>
    intro kept disc p K D P heq _ _ h1 h2 h3 h4 h5
    simp only [outerLoopG, Prod.mk.injEq] at heq
    obtain ⟨rfl, rfl, rfl⟩ := heq
    exact ⟨rfl, h1, h2, h3, h4, h5, ⟨[], by simp⟩, ⟨[], by simp⟩, fun x hx => hx⟩
  | cons i rest ih =>
    intro kept disc p K D P heq HT HI hKnd hDnd hKD hKp hDp
    simp only [outerLoopG] at heq
    by_cases hp : getB p i = true
    · rw [if_pos hp] at heq
      exact ih kept disc p K D P heq HT (fun x hx => HI x (by simp [hx]))
        hKnd hDnd hKD hKp hDp
    · rw [if_neg hp] at heq
      have hpf : getB p i = false := by simpa using hp
      have hi : i < p.length := HI i (by simp)
      have p1len : (p.set i true).length = p.length := by simp
      have HT1 : TreeValid tree (p.set i true).length := by rw [p1len]; exact HT
      have HQ1 : ∀ x ∈ [i], getB (p.set i true) x = true := by
        intro x hx
        have hx' : x = i := by simpa using hx
        rw [hx']
        exact getB_set_self p i hi
      obtain ⟨glen, gmono, gorig, gproc, _⟩ :=
        growLoop_spec filter tree tol i p.length 0 [i] (p.set i true) HT1
      have gall := (gproc HQ1).1
      have gnd := (gproc HQ1).2 (List.nodup_singleton i)
      have gfresh : ∀ x ∈ (growLoop filter tree tol i p.length 0 [i]
          (p.set i true)).1, getB p x = false := by
        intro x hx
        rcases gorig x hx with hx1 | ⟨hf, _⟩
        · have hx' : x = i := by simpa using hx1
          rw [hx']; exact hpf
        · exact getB_set_false_of hf
      have gdisjK : ∀ x ∈ (growLoop filter tree tol i p.length 0 [i]
          (p.set i true)).1, x ∉ flatI kept := by
        intro x hx hmem
        have h1 := gfresh x hx
        rw [hKp x hmem] at h1
        exact absurd h1 (by simp)
      have gdisjD : ∀ x ∈ (growLoop filter tree tol i p.length 0 [i]
          (p.set i true)).1, x ∉ flatI disc := by
        intro x hx hmem
        have h1 := gfresh x hx
        rw [hDp x hmem] at h1
        exact absurd h1 (by simp)
      have hg2len : (growLoop filter tree tol i p.length 0 [i]
          (p.set i true)).2.length = p.length := by rw [glen, p1len]
      have HT2 : TreeValid tree (growLoop filter tree tol i p.length 0 [i]
          (p.set i true)).2.length := by rw [hg2len]; exact HT
      have HI2 : ∀ x ∈ rest, x < (growLoop filter tree tol i p.length 0 [i]
          (p.set i true)).2.length := by
        rw [hg2len]; exact fun x hx => HI x (by simp [hx])
      have hmark : ∀ x, getB p x = true →
          getB (growLoop filter tree tol i p.length 0 [i] (p.set i true)).2 x = true :=
        fun x hx => gmono x (getB_set_mono hx i)
      by_cases hsz : minPts ≤ (growLoop filter tree tol i p.length 0 [i]
          (p.set i true)).1.length ∧
          (growLoop filter tree tol i p.length 0 [i] (p.set i true)).1.length ≤ maxPts
      · rw [if_pos hsz] at heq
        have hKnd' : (flatI (kept ++ [⟨hdr, (growLoop filter tree tol i p.length 0 [i]
            (p.set i true)).1⟩])).Nodup := by
          rw [flatI_snoc]
          exact List.nodup_append.2 ⟨hKnd, gnd, fun x hxk hxg => gdisjK x hxg hxk⟩
        obtain ⟨Plen, Knd, Dnd, KD, KP, DP, ⟨tk, hKtk, htk⟩, htd, Pmono⟩ :=
          ih _ disc _ K D P heq HT2 HI2 hKnd' hDnd
            (by
              intro x hxk hxd
              rw [flatI_snoc] at hxk
              rcases List.mem_append.1 hxk with hxk | hxg
              · exact hKD hxk hxd
              · exact gdisjD x hxg hxd)
            (by
              intro x hx
              rw [flatI_snoc] at hx
              rcases List.mem_append.1 hx with hxk | hxg
              · exact hmark x (hKp x hxk)
              · exact gall x hxg)
            (fun x hx => hmark x (hDp x hx))
        refine ⟨by rw [Plen, hg2len], Knd, Dnd, KD, KP, DP, ?_, htd,
          fun x hx => Pmono x (hmark x hx)⟩
        refine ⟨⟨hdr, (growLoop filter tree tol i p.length 0 [i]
            (p.set i true)).1⟩ :: tk, by simpa using hKtk, ?_⟩
        intro c hc
        rcases List.mem_cons.1 hc with rfl | hc
        · exact ⟨hsz.1, hsz.2, rfl⟩
        · exact htk c hc
      · rw [if_neg hsz] at heq
        have hDnd' : (flatI (disc ++ [⟨0, (growLoop filter tree tol i p.length 0 [i]
            (p.set i true)).1⟩])).Nodup := by
          rw [flatI_snoc]
          exact List.nodup_append.2 ⟨hDnd, gnd, fun x hxd hxg => gdisjD x hxg hxd⟩
        obtain ⟨Plen, Knd, Dnd, KD, KP, DP, htk, ⟨td, hDtd, htd⟩, Pmono⟩ :=
          ih kept _ _ K D P heq HT2 HI2 hKnd hDnd'
            (by
              intro x hxk hxd
              rw [flatI_snoc] at hxd
              rcases List.mem_append.1 hxd with hxd | hxg
              · exact hKD hxk hxd
              · exact gdisjK x hxg hxk)
            (fun x hx => hmark x (hKp x hx))
            (by
              intro x hx
              rw [flatI_snoc] at hx
              rcases List.mem_append.1 hx with hxd | hxg
              · exact hmark x (hDp x hxd)
              · exact gall x hxg)
        refine ⟨by rw [Plen, hg2len], Knd, Dnd, KD, KP, DP, htk, ?_,
          fun x hx => Pmono x (hmark x hx)⟩
        refine ⟨⟨0, (growLoop filter tree tol i p.length 0 [i]
            (p.set i true)).1⟩ :: td, by simpa using hDtd, ?_⟩
        intro d hd
        rcases List.mem_cons.1 hd with rfl | hd
        · simpa using hsz
        · exact htd d hd

/-- With fuel equal to the visited array's length, the fuel-explicit
outer iteration is exactly `outerLoopG` (the length is invariant through
the run). -/
theorem outerLoopGFuel_eq_outerLoopG (filter : FilterT) (tree : SearchTree)
    (tol : ℚ) (minPts maxPts hdr : Nat) :
    ∀ (itList : List Nat) (kept disc : List PointIndices) (p : List Bool),
    outerLoopGFuel filter tree tol minPts maxPts hdr p.length itList kept disc p =
    outerLoopG filter tree tol minPts maxPts hdr itList kept disc p := by
  intro itList
  induction itList with
  | nil => intro kept disc p; rfl
  | cons i rest ih =>
    intro kept disc p
    simp only [outerLoopGFuel, outerLoopG]
    by_cases hp : getB p i = true
    · rw [if_pos hp, if_pos hp]; exact ih kept disc p
    · rw [if_neg hp, if_neg hp]
      have hlen : (growLoop filter tree tol i p.length 0 [i] (p.set i true)).2.length
          = p.length := by
        rw [growLoop_length]
        exact List.length_set p i true
      by_cases hsz : minPts ≤ (growLoop filter tree tol i p.length 0 [i]
          (p.set i true)).1.length ∧
          (growLoop filter tree tol i p.length 0 [i] (p.set i true)).1.length ≤ maxPts
      · rw [if_pos hsz, if_pos hsz]
        have h := ih (kept ++ [⟨hdr, (growLoop filter tree tol i p.length 0 [i]
          (p.set i true)).1⟩]) disc
          (growLoop filter tree tol i p.length 0 [i] (p.set i true)).2
        rwa [hlen] at h
      · rw [if_neg hsz, if_neg hsz]
        have h := ih kept (disc ++ [⟨0, (growLoop filter tree tol i p.length 0 [i]
          (p.set i true)).1⟩])
          (growLoop filter tree tol i p.length 0 [i] (p.set i true)).2
        rwa [hlen] at h

/-- Whole-call fuel stability: for a valid index, every per-seed growth
of the call reaches its fixed point within `p.length` member expansions,
so any per-growth fuel of at least `p.length` produces the identical
run. -/
theorem outerLoopGFuel_stable (filter : FilterT) (tree : SearchTree) (tol : ℚ)
    (minPts maxPts hdr : Nat) :
    ∀ (itList : List Nat) (kept disc : List PointIndices) (p : List Bool)
      (fuel fuel' : Nat),
    TreeValid tree p.length →
    (∀ i ∈ itList, i < p.length) →
    p.length ≤ fuel → p.length ≤ fuel' →
    outerLoopGFuel filter tree tol minPts maxPts hdr fuel itList kept disc p =
    outerLoopGFuel filter tree tol minPts maxPts hdr fuel' itList kept disc p := by
  intro itList
  induction itList with
  | nil => intro kept disc p fuel fuel' _ _ _ _; rfl
  | cons i rest ih =>
    intro kept disc p fuel fuel' HT HI hf hf'
    simp only [outerLoopGFuel]
    by_cases hp : getB p i = true
    · rw [if_pos hp, if_pos hp]
      exact ih kept disc p fuel fuel' HT (fun x hx => HI x (by simp [hx])) hf hf'
    · rw [if_neg hp, if_neg hp]
      have hpf : getB p i = false := by simpa using hp
      have hi : i < p.length := HI i (by simp)
      have HT1 : TreeValid tree (p.set i true).length := by
        rw [List.length_set]; exact HT
      have hcf : countF (p.set i true) + 1 = countF p := countF_set_true p i hi hpf
      have hcl := countF_le_length p
      have hgrow : growLoop filter tree tol i fuel 0 [i] (p.set i true) =
          growLoop filter tree tol i fuel' 0 [i] (p.set i true) :=
        growLoop_stable filter tree tol i fuel fuel' 0 [i] (p.set i true) HT1
          (by simp only [List.length_singleton]; omega)
          (by simp only [List.length_singleton]; omega)
      rw [hgrow]
      have hlen : (growLoop filter tree tol i fuel' 0 [i] (p.set i true)).2.length
          = p.length := by
        rw [growLoop_length]
        exact List.length_set p i true
      have HT2 : TreeValid tree
          (growLoop filter tree tol i fuel' 0 [i] (p.set i true)).2.length := by
        rw [hlen]; exact HT
      have HI2 : ∀ x ∈ rest, x <
          (growLoop filter tree tol i fuel' 0 [i] (p.set i true)).2.length := by
        rw [hlen]; exact fun x hx => HI x (by simp [hx])
      by_cases hsz : minPts ≤ (growLoop filter tree tol i fuel' 0 [i]
          (p.set i true)).1.length ∧
          (growLoop filter tree tol i fuel' 0 [i] (p.set i true)).1.length ≤ maxPts
      · rw [if_pos hsz, if_pos hsz]
        exact ih _ disc _ fuel fuel' HT2 HI2 (by rw [hlen]; exact hf)
          (by rw [hlen]; exact hf')
      · rw [if_neg hsz, if_neg hsz]
        exact ih kept _ _ fuel fuel' HT2 HI2 (by rw [hlen]; exact hf)
          (by rw [hlen]; exact hf')

/-- With a filter that rejects every candidate, no seed queue ever grows:
every cluster appended by the outer iteration (kept or discarded) is a
singleton, and a cluster is kept exactly when `minPts ≤ 1 ≤ maxPts`. -/
theorem outerLoopG_const_false {filter : FilterT}
    (hf : ∀ s nnl j, filter s nnl j = false)
    (tree : SearchTree) (tol : ℚ) (minPts maxPts hdr : Nat) :
    ∀ (itList : List Nat) (kept disc : List PointIndices) (p : List Bool),
    ∃ tk, (outerLoopG filter tree tol minPts maxPts hdr itList kept disc p).1 =
        kept ++ tk ∧
      ∀ c ∈ tk, c.indices.length = 1 ∧ minPts ≤ 1 ∧ 1 ≤ maxPts := by
  intro itList
  induction itList with
  | nil => intro kept disc p; exact ⟨[], by simp [outerLoopG], by simp⟩
  | cons i rest ih =>
    intro kept disc p
    simp only [outerLoopG]
    by_cases hp : getB p i = true
    · rw [if_pos hp]; exact ih kept disc p
    · rw [if_neg hp]
      rw [growLoop_const_false hf tree tol i p.length 0 [i] (p.set i true)]
      by_cases hsz : minPts ≤ ([i] : List Nat).length ∧ ([i] : List Nat).length ≤ maxPts
      · rw [if_pos hsz]
        obtain ⟨tk, htk, hall⟩ := ih (kept ++ [⟨hdr, [i]⟩]) disc (p.set i true)
        refine ⟨⟨hdr, [i]⟩ :: tk, by simpa using htk, ?_⟩
        intro c hc
        rcases List.mem_cons.1 hc with rfl | hc
        · exact ⟨rfl, by simpa using hsz.1, by simpa using hsz.2⟩
        · exact hall c hc
      · rw [if_neg hsz]
        exact ih kept (disc ++ [⟨0, [i]⟩]) (p.set i true)

/-- Toggling only the sorted-results flag of an index whose successful
queries put the query point first: the one skipped candidate is the
already-visited query point itself, so each neighbour scan — and hence
the whole growth — is unchanged. -/
theorem growLoop_sorted_toggle (filter : FilterT) (tol : ℚ) (seed a b : Nat)
    (s : Nat → ℚ → Option (List Nat)) :
    ∀ (fuel sqIdx : Nat) (q : List Nat) (p : List Bool),
    (∀ i t r, s i t = some r → ∀ x ∈ r, x < p.length) →
    (∀ i t r, s i t = some r → r = [] ∨ r.head? = some i) →
    (∀ x ∈ q, getB p x = true) →
    growLoop filter ⟨a, b, true, s⟩ tol seed fuel sqIdx q p =
    growLoop filter ⟨a, b, false, s⟩ tol seed fuel sqIdx q p := by
  intro fuel
  induction fuel with
  | zero => intro sqIdx q p _ _ _; rfl
  | succ fuel ih =>
    intro sqIdx q p HT Hhead HQ
    by_cases h : sqIdx < q.length
    · simp only [growLoop, dif_pos h]
      cases hs : s (q.get ⟨sqIdx, h⟩) tol with
      | none => exact ih (sqIdx+1) q p HT Hhead HQ
      | some nn =>
        dsimp only
        have HB : ∀ x ∈ nn, x < p.length := HT _ _ _ hs
        rcases Hhead _ _ _ hs with hnil | hhd
        · subst hnil
          exact ih (sqIdx+1) q p HT Hhead HQ
        · obtain ⟨tl, rfl⟩ : ∃ tl, nn = q.get ⟨sqIdx, h⟩ :: tl := by
            cases nn with
            | nil => simp at hhd
            | cons x tl =>
              have hx : x = q.get ⟨sqIdx, h⟩ := by simpa using hhd
              exact ⟨tl, by rw [hx]⟩
          have hm : getB p (q.get ⟨sqIdx, h⟩) = true :=
            HQ _ (List.get_mem q sqIdx h)
          have hstep : processNeighbors filter seed (q.get ⟨sqIdx, h⟩ :: tl)
              (q.get ⟨sqIdx, h⟩ :: tl).length 0 q p =
              processNeighbors filter seed (q.get ⟨sqIdx, h⟩ :: tl)
              (q.get ⟨sqIdx, h⟩ :: tl).length 1 q p := by
            have h0 : (0:Nat) < (q.get ⟨sqIdx, h⟩ :: tl).length := by simp
            have hone : processNeighbors filter seed (q.get ⟨sqIdx, h⟩ :: tl)
                (tl.length + 1) 0 q p =
                processNeighbors filter seed (q.get ⟨sqIdx, h⟩ :: tl) tl.length 1 q p := by
              simp only [processNeighbors, dif_pos h0]
              have hm' : getB p ((q.get ⟨sqIdx, h⟩ :: tl).get ⟨0, h0⟩) = true := hm
              rw [if_pos hm']
            have hcongr := processNeighbors_congr_k filter seed
              (q.get ⟨sqIdx, h⟩ :: tl) tl.length (tl.length + 1) 1 q p
              (by simp only [List.length_cons]; omega)
              (by simp only [List.length_cons]; omega)
            simp only [List.length_cons]
            rw [hone, hcongr]
          simp only [if_true, Bool.false_eq_true, if_false]
          rw [hstep]
          obtain ⟨plen, _, _, pproc, _⟩ := processNeighbors_spec filter seed
            (q.get ⟨sqIdx, h⟩ :: tl) (q.get ⟨sqIdx, h⟩ :: tl).length 1 q p HB
          have HT2 : ∀ i t r, s i t = some r → ∀ x ∈ r,
              x < (processNeighbors filter seed (q.get ⟨sqIdx, h⟩ :: tl)
                (q.get ⟨sqIdx, h⟩ :: tl).length 1 q p).2.length := by
            rw [plen]; exact HT
          exact ih (sqIdx+1) _ _ HT2 Hhead (pproc HQ).1
    · rw [growLoop_exit filter ⟨a, b, true, s⟩ tol seed _ sqIdx q p (by omega),
          growLoop_exit filter ⟨a, b, false, s⟩ tol seed _ sqIdx q p (by omega)]

/-- The sorted-flag toggle lifted to the outer iteration. -/
theorem outerLoopG_sorted_toggle (filter : FilterT) (tol : ℚ)
    (minPts maxPts hdr a b : Nat) (s : Nat → ℚ → Option (List Nat)) :
    ∀ (itList : List Nat) (kept disc : List PointIndices) (p : List Bool),
    (∀ i t r, s i t = some r → ∀ x ∈ r, x < p.length) →
    (∀ i t r, s i t = some r → r = [] ∨ r.head? = some i) →
    (∀ i ∈ itList, i < p.length) →
    outerLoopG filter ⟨a, b, true, s⟩ tol minPts maxPts hdr itList kept disc p =
    outerLoopG filter ⟨a, b, false, s⟩ tol minPts maxPts hdr itList kept disc p := by
  intro itList
  induction itList with
  | nil => intro kept disc p _ _ _; rfl
  | cons i rest ih =>
    intro kept disc p HT Hhead HI
    simp only [outerLoopG]
    by_cases hp : getB p i = true
    · rw [if_pos hp, if_pos hp]
      exact ih kept disc p HT Hhead (fun x hx => HI x (by simp [hx]))
    · rw [if_neg hp, if_neg hp]
      have hi : i < p.length := HI i (by simp)
      have HT1 : ∀ i' t r, s i' t = some r → ∀ x ∈ r, x < (p.set i true).length := by
        simpa using HT
      have HQ1 : ∀ x ∈ [i], getB (p.set i true) x = true := by
        intro x hx
        have hx' : x = i := by simpa using hx
        rw [hx']
        exact getB_set_self p i hi
      have hgrow := growLoop_sorted_toggle filter tol i a b s p.length 0 [i]
        (p.set i true) HT1 Hhead HQ1
      rw [hgrow]
      obtain ⟨glen, _, _, _, _⟩ := growLoop_spec filter ⟨a, b, false, s⟩ tol i
        p.length 0 [i] (p.set i true)
        (by intro i' t r hr x hx; simpa using HT i' t r hr x hx)
      have HT2 : ∀ i' t r, s i' t = some r → ∀ x ∈ r,
          x < (growLoop filter ⟨a, b, false, s⟩ tol i p.length 0 [i]
            (p.set i true)).2.length := by
        rw [glen]; simpa using HT
      have HI2 : ∀ x ∈ rest, x < (growLoop filter ⟨a, b, false, s⟩ tol i
          p.length 0 [i] (p.set i true)).2.length := by
        rw [glen]
        intro x hx
        simpa using HI x (by simp [hx])
      by_cases hsz : minPts ≤ (growLoop filter ⟨a, b, false, s⟩ tol i
          p.length 0 [i] (p.set i true)).1.length ∧
          (growLoop filter ⟨a, b, false, s⟩ tol i p.length 0 [i]
            (p.set i true)).1.length ≤ maxPts
      · rw [if_pos hsz, if_pos hsz]
        exact ih _ disc _ HT2 Hhead HI2
      · rw [if_neg hsz, if_neg hsz]
        exact ih kept _ _ HT2 Hhead HI2

/-- When the size precondition holds, the iterator overload is the outer
iteration over the fresh visited array. -/
theorem extract_eq_outerLoopG (itList : List Nat) (cloud : Cloud)
    (filter : FilterT) (tree : SearchTree) (tol : ℚ)
    (clusters : List PointIndices) (minPts maxPts : Nat)
    (hsz : tree.inputSize = cloud.size) :
    extractEuclideanClustersIter itList cloud filter tree tol clusters minPts maxPts =
    (outerLoopG filter tree tol minPts maxPts cloud.header itList clusters []
      (List.replicate cloud.size false)).1 := by
  simp [extractEuclideanClustersIter, hsz]

/-! ### Claim theorems -/

/-- C3: if the spatial index's backing cloud size differs from the supplied
cloud's size (or, in the indices overload, the index's registered subset
size differs from the supplied indices' size), `extractEuclideanClusters`
returns before any growth: the caller's cluster vector is unchanged and no
point is processed. -/
theorem mismatched_tree_aborts (itList : List Nat) (cloud : Cloud)
    (filter : FilterT) (tree : SearchTree) (tol : ℚ)
    (clusters : List PointIndices) (minPts maxPts : Nat) (indices : List Nat) :
    (tree.inputSize ≠ cloud.size →
      extractEuclideanClustersIter itList cloud filter tree tol clusters minPts maxPts
        = clusters) ∧
    (tree.idxSize ≠ indices.length →
      extractEuclideanClustersIndices cloud indices filter tree tol clusters minPts maxPts
        = clusters) := by
  constructor
  · intro h; simp [extractEuclideanClustersIter, h]
  · intro h; simp [extractEuclideanClustersIndices, h]

theorem mismatched_tree_aborts_witness :
    extractEuclideanClustersIter [0] ⟨1, 5⟩ (fun _ _ _ => true) emptyTree 1
      [⟨3, [9]⟩] 1 4 = [⟨3, [9]⟩] ∧
    extractEuclideanClustersIndices ⟨1, 5⟩ [0] (fun _ _ _ => true) emptyTree 1
      [⟨3, [9]⟩] 1 4 = [⟨3, [9]⟩] :=
  ⟨(mismatched_tree_aborts [0] ⟨1, 5⟩ (fun _ _ _ => true) emptyTree 1
      [⟨3, [9]⟩] 1 4 [0]).1 (by decide),
   (mismatched_tree_aborts [0] ⟨1, 5⟩ (fun _ _ _ => true) emptyTree 1
      [⟨3, [9]⟩] 1 4 [0]).2 (by decide)⟩

/-- C7: when the radius query for the queued member at position `sqIdx`
fails, that member's expansion is skipped and the loop continues with the
next queued member; the state is untouched and all previously accepted
members remain in the queue to the end. -/
theorem failed_query_skips_member (filter : FilterT) (tree : SearchTree)
    (tol : ℚ) (seed fuel sqIdx : Nat) (q : List Nat) (p : List Bool)
    (h : sqIdx < q.length)
    (hs : tree.radiusSearch (q.get ⟨sqIdx, h⟩) tol = none) :
    growLoop filter tree tol seed (fuel+1) sqIdx q p =
      growLoop filter tree tol seed fuel (sqIdx+1) q p ∧
    ∃ tl, (growLoop filter tree tol seed (fuel+1) sqIdx q p).1 = q ++ tl := by
  constructor
  · simp only [growLoop, dif_pos h, hs]
  · exact growLoop_extends filter tree tol seed (fuel+1) sqIdx q p

theorem failed_query_skips_member_witness :
    growLoop (fun _ _ _ => true) failTree 1 1 3 0 [1] [false, true] =
      growLoop (fun _ _ _ => true) failTree 1 1 2 1 [1] [false, true] ∧
    ∃ tl, (growLoop (fun _ _ _ => true) failTree 1 1 3 0 [1] [false, true]).1
      = [1] ++ tl :=
  failed_query_skips_member (fun _ _ _ => true) failTree 1 1 2 0 [1]
    [false, true] (by decide) (by decide)

/-- C5: the normal-angle criterion first clamps `max_angle` to `[0, π]`
(absolute value capped at `π`), precomputes the cosine of the clamped
angle, and accepts the candidate at position `j` of the result list iff
the absolute dot product of the seed's normal and the candidate's normal
is strictly below that cosine. -/
theorem normal_filter_acceptance (normals : List (ℝ × ℝ × ℝ)) (max_angle : ℝ)
    (i j : Nat) (nn : List Nat) (hj : j < nn.length) :
    (0 ≤ min |max_angle| Real.pi ∧ min |max_angle| Real.pi ≤ Real.pi) ∧
    (normal_deviation_filter normals max_angle i nn j ↔
      |dot3 (normals.getD i (0, 0, 0)) (normals.getD (nn.get ⟨j, hj⟩) (0, 0, 0))| <
        Real.cos (min |max_angle| Real.pi)) := by
  refine ⟨⟨le_min (abs_nonneg _) Real.pi_pos.le, min_le_right _ _⟩, ?_⟩
  unfold normal_deviation_filter
  have hnn : nn.getD j 0 = nn.get ⟨j, hj⟩ := by
    rw [List.getD_eq_getElem?_getD, List.getElem?_eq_getElem hj]
    simp [List.get_eq_getElem]
  rw [hnn]

theorem normal_filter_acceptance_witness :
    ((0:ℝ) ≤ min |(0:ℝ)| Real.pi ∧ min |(0:ℝ)| Real.pi ≤ Real.pi) ∧
    (normal_deviation_filter [(1, 0, 0), (0, 1, 0)] 0 0 [0, 1] 1 ↔
      |dot3 ([((1:ℝ), (0:ℝ), (0:ℝ)), ((0:ℝ), (1:ℝ), (0:ℝ))].getD 0 (0, 0, 0))
            ([((1:ℝ), (0:ℝ), (0:ℝ)), ((0:ℝ), (1:ℝ), (0:ℝ))].getD
              (([0, 1] : List Nat).get ⟨1, by decide⟩) (0, 0, 0))| <
        Real.cos (min |(0:ℝ)| Real.pi)) :=
  normal_filter_acceptance [(1, 0, 0), (0, 1, 0)] 0 0 1 [0, 1] (by decide)

/-- C8: the normal-angle overloads check `cloud.size = normals.size`
before any growth and return with the caller's clusters unchanged on
mismatch; the indexed normal-angle overload additionally returns
immediately and silently when the supplied subset is empty. -/
theorem normals_overload_preconditions (cloud : Cloud)
    (normals : List (ℝ × ℝ × ℝ)) (indices : List Nat) (tree : SearchTree)
    (tol : ℚ) (clusters : List PointIndices) (max_angle : ℝ)
    (minPts maxPts : Nat) (out1 out2 out3 : List PointIndices) :
    (cloud.size ≠ normals.length →
      (extractEuclideanClustersNormals cloud normals tol tree clusters
         max_angle minPts maxPts out1 → out1 = clusters) ∧
      (extractEuclideanClustersNormalsIndices cloud normals indices tree tol
         clusters max_angle minPts maxPts out2 → out2 = clusters)) ∧
    (indices = [] →
      extractEuclideanClustersNormalsIndices cloud normals indices tree tol
        clusters max_angle minPts maxPts out3 → out3 = clusters) := by
  refine ⟨fun hne => ⟨fun hrel => ?_, fun hrel => ?_⟩, fun hnil hrel => ?_⟩
  · rwa [extractEuclideanClustersNormals, if_pos hne] at hrel
  · rwa [extractEuclideanClustersNormalsIndices, if_pos hne] at hrel
  · rw [extractEuclideanClustersNormalsIndices] at hrel
    by_cases hne : cloud.size ≠ normals.length
    · rwa [if_pos hne] at hrel
    · rwa [if_neg hne, if_pos hnil] at hrel

theorem normals_overload_preconditions_witness :
    ([⟨3, [5]⟩] : List PointIndices) = [⟨3, [5]⟩] ∧
    ([⟨4, [6]⟩] : List PointIndices) = [⟨4, [6]⟩] ∧
    ([⟨2, [8]⟩] : List PointIndices) = [⟨2, [8]⟩] :=
  ⟨((normals_overload_preconditions ⟨2, 0⟩ [(1, 0, 0)] [0] emptyTree 1
      [⟨3, [5]⟩] 1 1 4 [⟨3, [5]⟩] [⟨4, [6]⟩] [⟨2, [8]⟩]).1 (by decide)).1
      (by simp [extractEuclideanClustersNormals]),
   ((normals_overload_preconditions ⟨2, 0⟩ [(1, 0, 0)] [0] emptyTree 1
      [⟨4, [6]⟩] 1 1 4 [⟨3, [5]⟩] [⟨4, [6]⟩] [⟨2, [8]⟩]).1 (by decide)).2
      (by simp [extractEuclideanClustersNormalsIndices]),
   (normals_overload_preconditions ⟨1, 0⟩ [(1, 0, 0)] [] emptyTree 1
      [⟨2, [8]⟩] 1 1 4 [⟨3, [5]⟩] [⟨4, [6]⟩] [⟨2, [8]⟩]).2 rfl
      (by simp [extractEuclideanClustersNormalsIndices])⟩

/-- C2: for every cloud view, tolerance, filter and size bounds, the
output clusters of `extractEuclideanClusters` contain each point
identifier at most once overall (so each identifier is in at most one
cluster), and a point of a cluster discarded for violating the size
bounds appears in no output cluster at all. -/
theorem extraction_partition (itList : List Nat) (cloud : Cloud)
    (filter : FilterT) (tree : SearchTree) (tol : ℚ) (minPts maxPts : Nat)
    (K D : List PointIndices) (P : List Bool)
    (hsz : tree.inputSize = cloud.size)
    (HT : TreeValid tree cloud.size)
    (HI : ∀ i ∈ itList, i < cloud.size)
    (hrun : outerLoopG filter tree tol minPts maxPts cloud.header itList [] []
      (List.replicate cloud.size false) = (K, D, P)) :
    extractEuclideanClustersIter itList cloud filter tree tol [] minPts maxPts = K ∧
    (flatI K).Nodup ∧
    (∀ d ∈ D, ∀ x ∈ d.indices, x ∉ flatI K) := by
  have hlen : (List.replicate cloud.size false).length = cloud.size := by simp
  obtain ⟨_, Knd, _, KD, _, _, _, _, _⟩ :=
    outerLoopG_invariants filter tree tol minPts maxPts cloud.header itList [] []
      (List.replicate cloud.size false) K D P hrun (by rwa [hlen])
      (by rw [hlen]; exact HI) (by simp [flatI]) (by simp [flatI])
      (by simp [flatI, List.Disjoint]) (by simp [flatI]) (by simp [flatI])
  refine ⟨?_, Knd, ?_⟩
  · rw [extract_eq_outerLoopG itList cloud filter tree tol [] minPts maxPts hsz,
      hrun]
  · intro d hd x hx hxK
    exact KD hxK (mem_flatI.2 ⟨d, hd, hx⟩)

theorem extraction_partition_witness :
    extractEuclideanClustersIter [0, 1, 2] ⟨3, 9⟩ (fun _ _ _ => true)
      threePointTree 1 [] 2 10 = [⟨9, [0, 1]⟩] ∧
    (flatI [⟨9, [0, 1]⟩]).Nodup ∧
    (∀ d ∈ [(⟨0, [2]⟩ : PointIndices)], ∀ x ∈ d.indices,
      x ∉ flatI [⟨9, [0, 1]⟩]) :=
  extraction_partition [0, 1, 2] ⟨3, 9⟩ (fun _ _ _ => true) threePointTree 1
    2 10 [⟨9, [0, 1]⟩] [⟨0, [2]⟩] [true, true, true] rfl
    (by
      show TreeValid threePointTree 3
      intro i t r hr x hx
      rcases i with _ | _ | _ | i <;>
        simp only [threePointTree, searchFun3, Option.some.injEq] at hr <;>
        first
          | (subst hr; simp at hx; omega)
          | exact absurd hr (by simp))
    (by decide) (by decide)

/-- C4: when a grown cluster's member queue is exhausted, the cluster is
kept in the output and stamped with the cloud's header exactly when
`minPts ≤ size ≤ maxPts`; a discarded cluster violates the bounds, its
member points remain marked processed in the final visited array, and
they appear in no output cluster of the same call. -/
theorem cluster_finalization_rule (itList : List Nat) (cloud : Cloud)
    (filter : FilterT) (tree : SearchTree) (tol : ℚ) (minPts maxPts : Nat)
    (K D : List PointIndices) (P : List Bool)
    (hsz : tree.inputSize = cloud.size)
    (HT : TreeValid tree cloud.size)
    (HI : ∀ i ∈ itList, i < cloud.size)
    (hrun : outerLoopG filter tree tol minPts maxPts cloud.header itList [] []
      (List.replicate cloud.size false) = (K, D, P)) :
    extractEuclideanClustersIter itList cloud filter tree tol [] minPts maxPts = K ∧
    (∀ c ∈ K, minPts ≤ c.indices.length ∧ c.indices.length ≤ maxPts ∧
       c.header = cloud.header) ∧
    (∀ d ∈ D, ¬(minPts ≤ d.indices.length ∧ d.indices.length ≤ maxPts)) ∧
    (∀ d ∈ D, ∀ x ∈ d.indices, getB P x = true ∧ x ∉ flatI K) := by
  have hlen : (List.replicate cloud.size false).length = cloud.size := by simp
  obtain ⟨_, _, _, KD, _, DP, ⟨tk, hKtk, htk⟩, ⟨td, hDtd, htd⟩, _⟩ :=
    outerLoopG_invariants filter tree tol minPts maxPts cloud.header itList [] []
      (List.replicate cloud.size false) K D P hrun (by rwa [hlen])
      (by rw [hlen]; exact HI) (by simp [flatI]) (by simp [flatI])
      (by simp [flatI, List.Disjoint]) (by simp [flatI]) (by simp [flatI])
  have hK : K = tk := by simpa using hKtk
  have hD : D = td := by simpa using hDtd
  refine ⟨?_, ?_, ?_, ?_⟩
  · rw [extract_eq_outerLoopG itList cloud filter tree tol [] minPts maxPts hsz,
      hrun]
  · rw [hK]; exact htk
  · rw [hD]; exact htd
  · intro d hd x hx
    exact ⟨DP x (mem_flatI.2 ⟨d, hd, hx⟩), fun hxK => KD hxK (mem_flatI.2 ⟨d, hd, hx⟩)⟩

theorem cluster_finalization_rule_witness :
    extractEuclideanClustersIter [0, 1, 2] ⟨3, 11⟩ (fun _ _ _ => true)
      threePointTree 1 [] 2 10 = [⟨11, [0, 1]⟩] ∧
    (∀ c ∈ [(⟨11, [0, 1]⟩ : PointIndices)], 2 ≤ c.indices.length ∧
       c.indices.length ≤ 10 ∧ c.header = (Cloud.mk 3 11).header) ∧
    (∀ d ∈ [(⟨0, [2]⟩ : PointIndices)],
       ¬(2 ≤ d.indices.length ∧ d.indices.length ≤ 10)) ∧
    (∀ d ∈ [(⟨0, [2]⟩ : PointIndices)], ∀ x ∈ d.indices,
       getB [true, true, true] x = true ∧ x ∉ flatI [⟨11, [0, 1]⟩]) :=
  cluster_finalization_rule [0, 1, 2] ⟨3, 11⟩ (fun _ _ _ => true) threePointTree
    1 2 10 [⟨11, [0, 1]⟩] [⟨0, [2]⟩] [true, true, true] rfl
    (by
      show TreeValid threePointTree 3
      intro i t r hr x hx
      rcases i with _ | _ | _ | i <;>
        simp only [threePointTree, searchFun3, Option.some.injEq] at hr <;>
        first
          | (subst hr; simp at hx; omega)
          | exact absurd hr (by simp))
    (by decide) (by decide)

/-- C6: running the extraction with the index reporting sorted results
(first neighbour of each query skipped as the self-match) produces the
same clusters as the same index reporting unsorted results (no neighbour
skipped).  The sorted-results semantics is captured by the hypothesis
that a successful query's result list starts with the query point. -/
theorem sorted_flag_same_partition (cloud : Cloud) (filter : FilterT)
    (a b : Nat) (s : Nat → ℚ → Option (List Nat)) (tol : ℚ)
    (clusters : List PointIndices) (minPts maxPts : Nat)
    (HT : TreeValid ⟨a, b, true, s⟩ cloud.size)
    (Hhead : ∀ i t r, s i t = some r → r = [] ∨ r.head? = some i) :
    extractEuclideanClusters cloud filter ⟨a, b, true, s⟩ tol clusters minPts maxPts =
    extractEuclideanClusters cloud filter ⟨a, b, false, s⟩ tol clusters minPts maxPts := by
  by_cases hsz : a = cloud.size
  · rw [extractEuclideanClusters, extractEuclideanClusters,
      extract_eq_outerLoopG _ _ _ _ _ _ _ _ hsz,
      extract_eq_outerLoopG _ _ _ _ _ _ _ _ hsz]
    exact congrArg (fun z => z.1)
      (outerLoopG_sorted_toggle filter tol minPts maxPts cloud.header a b s
        (List.range cloud.size) clusters [] (List.replicate cloud.size false)
        (by
          intro i t r hr x hx
          have := HT i t r hr x hx
          simpa using this)
        Hhead
        (by
          intro x hx
          simpa using List.mem_range.1 hx))
  · simp [extractEuclideanClusters, extractEuclideanClustersIter, hsz]

theorem sorted_flag_same_partition_witness :
    extractEuclideanClusters ⟨3, 9⟩ (fun _ _ _ => true) ⟨3, 0, true, searchFun3⟩
      1 [] 1 10 =
    extractEuclideanClusters ⟨3, 9⟩ (fun _ _ _ => true) ⟨3, 0, false, searchFun3⟩
      1 [] 1 10 :=
  sorted_flag_same_partition ⟨3, 9⟩ (fun _ _ _ => true) 3 0 searchFun3 1 [] 1 10
    (by
      show TreeValid ⟨3, 0, true, searchFun3⟩ 3
      intro i t r hr x hx
      rcases i with _ | _ | _ | i <;>
        simp only [searchFun3, Option.some.injEq] at hr <;>
        first
          | (subst hr; simp at hx; omega)
          | exact absurd hr (by simp))
    (by
      intro i t r hr
      rcases i with _ | _ | _ | i <;>
        simp only [searchFun3, Option.some.injEq] at hr <;>
        first
          | (subst hr; simp)
          | exact absurd hr (by simp))

/-- C9: whenever the clamped maximum angle is at least `π/2` (so its
cosine is nonpositive), the normal-deviation criterion rejects every
candidate, hence every cluster produced by the normal-angle variant is a
singleton, and clusters are produced only if `minPts ≤ 1 ≤ maxPts`. -/
theorem wide_angle_gives_singletons (cloud : Cloud)
    (normals : List (ℝ × ℝ × ℝ)) (tol : ℚ) (tree : SearchTree)
    (max_angle : ℝ) (minPts maxPts : Nat) (out : List PointIndices)
    (hang : Real.pi / 2 ≤ min |max_angle| Real.pi)
    (hrel : extractEuclideanClustersNormals cloud normals tol tree []
      max_angle minPts maxPts out) :
    ∀ c ∈ out, c.indices.length = 1 ∧ minPts ≤ 1 ∧ 1 ≤ maxPts := by
  rw [extractEuclideanClustersNormals] at hrel
  by_cases hne : cloud.size ≠ normals.length
  · rw [if_pos hne] at hrel
    subst hrel
    intro c hc
    exact absurd hc (by simp)
  · rw [if_neg hne] at hrel
    obtain ⟨f, hf, hout⟩ := hrel
    have hcos : Real.cos (min |max_angle| Real.pi) ≤ 0 :=
      Real.cos_nonpos_of_pi_div_two_le_of_le hang
        (le_trans (min_le_right _ _) (by linarith [Real.pi_pos]))
    have hfalse : ∀ s nnl j, f s nnl j = false := by
      intro s nnl j
      by_cases hft : f s nnl j = true
      · have hp := (hf s nnl j).1 hft
        unfold normal_deviation_filter at hp
        exact absurd hp (not_lt.2 (le_trans hcos (abs_nonneg _)))
      · simpa using hft
    subst hout
    rw [extractEuclideanClusters, extractEuclideanClustersIter]
    by_cases hsz : tree.inputSize ≠ cloud.size
    · rw [if_pos hsz]
      intro c hc
      exact absurd hc (by simp)
    · rw [if_neg hsz]
      obtain ⟨tk, htk, hall⟩ := outerLoopG_const_false hfalse tree tol minPts
        maxPts cloud.header (List.range cloud.size) [] []
        (List.replicate cloud.size false)
      intro c hc
      rw [htk] at hc
      exact hall c (by simpa using hc)

theorem wide_angle_gives_singletons_witness :
    (⟨5, [0]⟩ : PointIndices).indices.length = 1 ∧ 1 ≤ 1 ∧ 1 ≤ 1 :=
  wide_angle_gives_singletons ⟨1, 5⟩ [(1, 0, 0)] 1 onePointTree Real.pi 1 1
    [⟨5, [0]⟩]
    (by rw [abs_of_pos Real.pi_pos, min_self]; linarith [Real.pi_pos])
    (by
      rw [extractEuclideanClustersNormals, if_neg (by decide)]
      refine ⟨fun _ _ _ => false, ?_, by decide⟩
      intro i nn j
      have hc : Real.cos (min |Real.pi| Real.pi) = -1 := by
        rw [abs_of_pos Real.pi_pos, min_self, Real.cos_pi]
      refine iff_of_false (by simp) (not_lt.2 ?_)
      rw [hc]
      exact le_trans (by norm_num) (abs_nonneg _))
    ⟨5, [0]⟩ (by simp)

/-- C10: the whole extraction call terminates for every finite cloud and
every filter: a point is appended to a seed queue only while not yet
marked processed and is marked at that same moment, so across the whole
call the queue entries of all grown clusters — kept and discarded alike —
are pairwise distinct identifiers below `n` (at most one queue entry per
point ever exists), and their total count, which is exactly the total
number of inner-loop member expansions the call performs, is at most `n`.
Consequently the per-growth fuel `n` baked into the embedding is the
call's fixed point: any fuel of at least `n` yields the identical run. -/
theorem extraction_terminates_whole_call (itList : List Nat) (cloud : Cloud)
    (filter : FilterT) (tree : SearchTree) (tol : ℚ)
    (minPts maxPts fuel : Nat) (K D : List PointIndices) (P : List Bool)
    (hsz : tree.inputSize = cloud.size)
    (HT : TreeValid tree cloud.size)
    (HI : ∀ i ∈ itList, i < cloud.size)
    (hrun : outerLoopG filter tree tol minPts maxPts cloud.header itList [] []
      (List.replicate cloud.size false) = (K, D, P)) :
    extractEuclideanClustersIter itList cloud filter tree tol [] minPts maxPts = K ∧
    (flatI (K ++ D)).Nodup ∧
    (∀ x ∈ flatI (K ++ D), x < cloud.size) ∧
    (flatI (K ++ D)).length ≤ cloud.size ∧
    (cloud.size ≤ fuel →
      outerLoopGFuel filter tree tol minPts maxPts cloud.header fuel itList [] []
        (List.replicate cloud.size false) = (K, D, P)) := by
  have hlen : (List.replicate cloud.size false).length = cloud.size := by simp
  obtain ⟨Plen, Knd, Dnd, KD, KP, DP, _, _, _⟩ :=
    outerLoopG_invariants filter tree tol minPts maxPts cloud.header itList [] []
      (List.replicate cloud.size false) K D P hrun (by rwa [hlen])
      (by rw [hlen]; exact HI) (by simp [flatI]) (by simp [flatI])
      (by simp [flatI, List.Disjoint]) (by simp [flatI]) (by simp [flatI])
  have hndKD : (flatI (K ++ D)).Nodup := by
    rw [flatI_append]
    exact List.nodup_append.2 ⟨Knd, Dnd, KD⟩
  have hmarked : ∀ x ∈ flatI (K ++ D), getB P x = true := by
    intro x hx
    rw [flatI_append] at hx
    rcases List.mem_append.1 hx with hx | hx
    · exact KP x hx
    · exact DP x hx
  have hbound : ∀ x ∈ flatI (K ++ D), x < cloud.size := by
    intro x hx
    have hxl := lt_length_of_getB (hmarked x hx)
    rwa [Plen, hlen] at hxl
  refine ⟨?_, hndKD, hbound, nodup_length_le hndKD hbound, fun hfuel => ?_⟩
  · rw [extract_eq_outerLoopG itList cloud filter tree tol [] minPts maxPts hsz,
      hrun]
  · have hstab := outerLoopGFuel_stable filter tree tol minPts maxPts cloud.header
      itList [] [] (List.replicate cloud.size false) fuel
      (List.replicate cloud.size false).length
      (by rwa [hlen]) (by rw [hlen]; exact HI)
      (by rw [hlen]; exact hfuel) (Nat.le_refl _)
    rw [hstab, outerLoopGFuel_eq_outerLoopG, hrun]

theorem extraction_terminates_whole_call_witness :
    extractEuclideanClustersIter [0, 1, 2] ⟨3, 9⟩ (fun _ _ _ => true)
      threePointTree 1 [] 2 10 = [⟨9, [0, 1]⟩] ∧
    (flatI ([⟨9, [0, 1]⟩] ++ [⟨0, [2]⟩])).Nodup ∧
    (∀ x ∈ flatI ([⟨9, [0, 1]⟩] ++ [⟨0, [2]⟩]), x < 3) ∧
    (flatI ([⟨9, [0, 1]⟩] ++ [⟨0, [2]⟩])).length ≤ 3 ∧
    (3 ≤ 7 →
      outerLoopGFuel (fun _ _ _ => true) threePointTree 1 2 10 9 7 [0, 1, 2]
        [] [] (List.replicate 3 false) =
        ([⟨9, [0, 1]⟩], [⟨0, [2]⟩], [true, true, true])) :=
  extraction_terminates_whole_call [0, 1, 2] ⟨3, 9⟩ (fun _ _ _ => true)
    threePointTree 1 2 10 7 [⟨9, [0, 1]⟩] [⟨0, [2]⟩] [true, true, true] rfl
    (by
      show TreeValid threePointTree 3
      intro i t r hr x hx
      rcases i with _ | _ | _ | i <;>
        simp only [threePointTree, searchFun3, Option.some.injEq] at hr <;>
        first
          | (subst hr; simp at hx; omega)
          | exact absurd hr (by simp))
    (by decide) (by decide)

/-- C1 (evaluation of the code at the claim's scenario): for two adjacent
points whose normals are at 90° and a maximum angle of `π/3 < π/2`, the
normal-angle variant produces ONE cluster containing both points — the
criterion `|dot| < cos max_angle` accepts the orthogonal pair —, while
for the same two points with identical normals it produces TWO singleton
clusters.  This is the opposite of the claimed behaviour. -/
theorem normal_gating_evaluated :
    extractEuclideanClustersNormals ⟨2, 7⟩ [(1, 0, 0), (0, 1, 0)] 1 twoPointTree
      [] (Real.pi / 3) 1 4 [⟨7, [0, 1]⟩] ∧
    extractEuclideanClustersNormals ⟨2, 7⟩ [(1, 0, 0), (1, 0, 0)] 1 twoPointTree
      [] (Real.pi / 3) 1 4 [⟨7, [0]⟩, ⟨7, [1]⟩] := by
  have hcos : Real.cos (min |Real.pi / 3| Real.pi) = 1 / 2 := by
    rw [abs_of_pos (by positivity), min_eq_left (by linarith [Real.pi_pos]),
      Real.cos_pi_div_three]
  constructor
  · rw [extractEuclideanClustersNormals, if_neg (by decide)]
    refine ⟨fun i nn j => decide (i ≠ nn.getD j 0 ∨ 2 ≤ i), ?_, by decide⟩
    intro i nn j
    rw [decide_eq_true_eq]
    unfold normal_deviation_filter
    rw [hcos]
    obtain ⟨m, hm⟩ : ∃ m, nn.getD j 0 = m := ⟨_, rfl⟩
    rw [hm]
    rcases i with _ | _ | i <;> rcases m with _ | _ | m <;>
      simp [dot3, List.getD_cons_zero, List.getD_cons_succ, List.getD_nil,
        abs_zero, abs_one] <;>
      norm_num
  · rw [extractEuclideanClustersNormals, if_neg (by decide)]
    refine ⟨fun i nn j => decide (2 ≤ i ∨ 2 ≤ nn.getD j 0), ?_, by decide⟩
    intro i nn j
    rw [decide_eq_true_eq]
    unfold normal_deviation_filter
    rw [hcos]
    obtain ⟨m, hm⟩ : ∃ m, nn.getD j 0 = m := ⟨_, rfl⟩
    rw [hm]
    rcases i with _ | _ | i <;> rcases m with _ | _ | m <;>
      simp [dot3, List.getD_cons_zero, List.getD_cons_succ, List.getD_nil,
        abs_zero, abs_one] <;>
      norm_num

end PclClusters
